import Mathlib

/-!
Verification of the vacation-rental recommendation core
(`smart_search.py` and `recommender/Recommender.py`).

The Python string pipeline is embedded on `List Char` / `String`;
floats that only ever hold exact decimal values are embedded as `ℚ`,
and `math.exp` as `Real.exp` (so those scores live in `ℝ`).
-/

/-! ## Python string primitives -/

/-- ASCII whitespace, matching Python's regex `\s` class on the inputs the
    program handles (space, tab, newline, carriage return, vertical tab, form feed). -/
def isWS (c : Char) : Bool :=
  c == ' ' || c == '\t' || c == '\n' || c == '\r' || c == '\x0b' || c == '\x0c'

/-- Characters kept by the regex substitution `re.sub(r"[^a-z0-9\s\-]", " ", s)`:
    anything else is replaced by a space. -/
def keepChar (c : Char) : Bool :=
  (97 ≤ c.toNat && c.toNat ≤ 122) || (48 ≤ c.toNat && c.toNat ≤ 57) || isWS c || c == '-'

/-- `re.sub(r"[^a-z0-9\s\-]", " ", s)` on the character list. -/
def replaceList (l : List Char) : List Char :=
  l.map fun c => if keepChar c then c else ' '

/-- `re.sub(r"\s+", " ", s)`: every maximal run of whitespace becomes one space. -/
def collapseList : List Char → List Char
  | [] => []
  | [c] => if isWS c then [' '] else [c]
  | c :: d :: rest =>
    if isWS c && isWS d then collapseList (d :: rest)
    else (if isWS c then ' ' else c) :: collapseList (d :: rest)

/-- Python `str.strip()`: drop whitespace from both ends. -/
def stripList (l : List Char) : List Char :=
  ((l.dropWhile (isWS ·)).reverse.dropWhile (isWS ·)).reverse

/-- Python `str.strip()` on a `String`. -/
def pyStrip (s : String) : String :=
  String.mk (stripList s.data)

/-- Python `str.lower()` on a `String` (ASCII case folding as in `Char.toLower`). -/
def lowerStr (s : String) : String :=
  String.mk (s.data.map Char.toLower)

/-- `smart_search.normalize_token` on a genuine string:
    `t.lower().strip()`, then the two regex substitutions, in source order. -/
def normalizeToken (s : String) : String :=
  String.mk (collapseList (replaceList (stripList (s.data.map Char.toLower))))

/-- Python `s.split(" ")`: split on single spaces (empty pieces included). -/
def splitChar : List Char → List (List Char)
  | [] => [[]]
  | c :: rest =>
    if c = ' ' then [] :: splitChar rest
    else
      match splitChar rest with
      | [] => [[c]]
      | g :: gs => (c :: g) :: gs

/-- `smart_search.tokenize`: normalize, split on spaces, drop empty tokens. -/
def tokenize (s : String) : List String :=
  ((splitChar (normalizeToken s).data).map String.mk).filter (· ≠ "")

/-- `Recommender._tok`: `s.lower()`, the two regex substitutions (no strip),
    split on spaces, drop empty tokens. -/
def tokR (s : String) : List String :=
  ((splitChar (collapseList (replaceList (s.data.map Char.toLower)))).map String.mk).filter
    (· ≠ "")

/-- A Python value as it may reach `normalize_token`: `None`, a string, an
    integer, or a boolean.  `str()` renders them the way Python does. -/
inductive PyVal where
  | none : PyVal
  | str : String → PyVal
  | int : Int → PyVal
  | bool : Bool → PyVal

/-- Python `str(v)` for the values above (never applied to `None` by the code). -/
def pyToStr : PyVal → String
  | .none => "None"
  | .str s => s
  | .int n => toString n
  | .bool b => if b then "True" else "False"

/-- `normalize_token` as called on an arbitrary Python value:
    `t = "" if t is None else str(t)` followed by the string pipeline. -/
def normalizeTokenPy (v : PyVal) : String :=
  normalizeToken (match v with | .none => "" | w => pyToStr w)

/-! ## Facts about the normalizer (for the idempotence claim) -/

/-- No two adjacent whitespace characters. -/
def NoAdjWS (l : List Char) : Prop :=
  List.Chain' (fun a b => ¬(isWS a = true ∧ isWS b = true)) l

theorem collapseList_cons_cons {c d : Char} {rest : List Char}
    (h : ¬(isWS c && isWS d) = true) :
    collapseList (c :: d :: rest) =
      (if isWS c then ' ' else c) :: collapseList (d :: rest) := by
  simp [collapseList, h]

theorem collapseList_head_not_ws {d : Char} (rest : List Char) (hd : isWS d = false) :
    ∃ tl, collapseList (d :: rest) = d :: tl := by
  cases rest with
  | nil => exact ⟨[], by simp [collapseList, hd]⟩
  | cons e es => exact ⟨collapseList (e :: es), by simp [collapseList, hd]⟩

theorem collapseList_chars {l : List Char} :
    ∀ c ∈ collapseList l, c = ' ' ∨ (c ∈ l ∧ isWS c = false) := by
  induction l using collapseList.induct with
  | case1 => intro c hc; simp [collapseList] at hc
  | case2 c h =>
      intro x hx
      rw [show collapseList [c] = [' '] by simp [collapseList, h]] at hx
      exact Or.inl (List.mem_singleton.mp hx)
  | case3 c h =>
      intro x hx
      rw [show collapseList [c] = [c] by simp [collapseList, h]] at hx
      rw [List.mem_singleton.mp hx]
      exact Or.inr ⟨List.mem_singleton.mpr rfl, by simpa using h⟩
  | case4 c d rest h ih =>
      intro x hx
      rw [show collapseList (c :: d :: rest) = collapseList (d :: rest) by
        simp [collapseList, h]] at hx
      rcases ih x hx with h' | ⟨hm, hws⟩
      · exact Or.inl h'
      · exact Or.inr ⟨List.mem_cons_of_mem _ hm, hws⟩
  | case5 c d rest h ih =>
      intro x hx
      rw [collapseList_cons_cons h] at hx
      rcases List.mem_cons.mp hx with h' | h'
      · by_cases hc : isWS c
        · rw [h']; simp [hc]
        · rw [h', if_neg hc]
          exact Or.inr ⟨List.mem_cons_self c _, by simpa using hc⟩
      · rcases ih x h' with h'' | ⟨hm, hws⟩
        · exact Or.inl h''
        · exact Or.inr ⟨List.mem_cons_of_mem _ hm, hws⟩

theorem collapseList_noAdjWS (l : List Char) : NoAdjWS (collapseList l) := by
  induction l using collapseList.induct with
  | case1 => simp [collapseList, NoAdjWS]
  | case2 c h => simp [collapseList, h, NoAdjWS]
  | case3 c h => simp [collapseList, h, NoAdjWS]
  | case4 c d rest h ih =>
      rw [NoAdjWS, show collapseList (c :: d :: rest) = collapseList (d :: rest) by
        simp [collapseList, h]]
      exact ih
  | case5 c d rest h ih =>
      rw [NoAdjWS, collapseList_cons_cons h]
      rcases hcol : collapseList (d :: rest) with _ | ⟨y, ys⟩
      · exact List.chain'_singleton _
      · refine List.chain'_cons.mpr ⟨?_, by rw [← hcol]; exact ih⟩
        by_cases hc : isWS c
        · have hd : isWS d = false := by
            cases hisd : isWS d
            · rfl
            · exact absurd (by simp [hc, hisd]) h
          obtain ⟨tl, htl⟩ := collapseList_head_not_ws rest hd
          rw [htl] at hcol
          have hyd : y = d := (List.cons.injEq .. ▸ hcol).1.symm
          intro ⟨_, hwy⟩
          rw [hyd] at hwy
          simp [hd] at hwy
        · intro ⟨hwc, _⟩
          rw [if_neg hc] at hwc
          exact hc hwc

theorem collapseList_eq_self {l : List Char}
    (hws : ∀ c ∈ l, isWS c = true → c = ' ') (hch : NoAdjWS l) :
    collapseList l = l := by
  induction l using collapseList.induct with
  | case1 => rfl
  | case2 c h =>
      rw [show collapseList [c] = [' '] by simp [collapseList, h],
        hws c (List.mem_singleton.mpr rfl) h]
  | case3 c h => simp [collapseList, h]
  | case4 c d rest h ih =>
      exact absurd ⟨Bool.and_elim_left h, Bool.and_elim_right h⟩
        (List.chain'_cons.mp hch).1
  | case5 c d rest h ih =>
      rw [collapseList_cons_cons h,
        ih (fun x hx => hws x (List.mem_cons_of_mem _ hx)) (List.chain'_cons.mp hch).2]
      by_cases hc : isWS c
      · rw [if_pos hc, hws c (List.mem_cons_self c _) hc]
      · rw [if_neg hc]

theorem stripList_infix (l : List Char) : stripList l <:+: l := by
  have h2 : (l.dropWhile (isWS ·)).reverse.dropWhile (isWS ·) <:+:
      (l.dropWhile (isWS ·)).reverse := (List.dropWhile_suffix _).isInfix
  have h2' : (stripList l).reverse <:+: (l.dropWhile (isWS ·)).reverse := by
    simpa [stripList] using h2
  exact (List.reverse_infix.mp h2').trans (List.dropWhile_suffix _).isInfix

theorem NoAdjWS.of_infix {l m : List Char} (h : NoAdjWS l) (hm : m <:+: l) : NoAdjWS m :=
  List.Chain'.infix h hm

theorem map_eq_self_of_fix {l : List Char} {f : Char → Char} (h : ∀ c ∈ l, f c = c) :
    l.map f = l := by
  induction l with
  | nil => rfl
  | cons c cs ih =>
      rw [List.map_cons, h c (List.mem_cons_self c cs),
        ih (fun x hx => h x (List.mem_cons_of_mem _ hx))]

theorem replaceList_eq_self {l : List Char} (h : ∀ c ∈ l, keepChar c = true) :
    replaceList l = l :=
  map_eq_self_of_fix (fun c hc => by simp [h c hc])

theorem map_toLower_eq_self {l : List Char} (h : ∀ c ∈ l, c.toLower = c) :
    l.map Char.toLower = l :=
  map_eq_self_of_fix h

/-- A kept character that is not whitespace is a lowercase letter, digit, or
    hyphen; `Char.toLower` fixes all of these. -/
theorem toLower_of_keep {c : Char} (hk : keepChar c = true)
    (hw : isWS c = true → c = ' ') : c.toLower = c := by
  have hv : ¬(c.toNat ≥ 65 ∧ c.toNat ≤ 90) := by
    simp only [keepChar, Bool.or_eq_true, Bool.and_eq_true, decide_eq_true_eq, beq_iff_eq]
      at hk
    rcases hk with ((⟨h1, h2⟩ | ⟨h1, h2⟩) | h1) | h1
    · omega
    · omega
    · have : c = ' ' := hw h1
      rw [this]; decide
    · rw [h1]; decide
  simp [Char.toLower, hv]

theorem keepChar_space : keepChar ' ' = true := by decide

/-- Every character of a normalized string is kept, its whitespace is exactly
    `' '`, and no two whitespace characters are adjacent. -/
theorem normalizeToken_chars (s : String) :
    (∀ c ∈ (normalizeToken s).data, keepChar c = true) ∧
    (∀ c ∈ (normalizeToken s).data, isWS c = true → c = ' ') ∧
    NoAdjWS (normalizeToken s).data := by
  have hrep : ∀ c ∈ replaceList (stripList (s.data.map Char.toLower)), keepChar c = true := by
    intro c hc
    rcases List.mem_map.mp hc with ⟨d, _, hd⟩
    by_cases h : keepChar d
    · rw [← hd]; simp [h]
    · rw [← hd]; simp [h, keepChar_space]
  have hdata : (normalizeToken s).data =
      collapseList (replaceList (stripList (s.data.map Char.toLower))) := rfl
  refine ⟨?_, ?_, ?_⟩
  · intro c hc
    rw [hdata] at hc
    rcases collapseList_chars c hc with h | ⟨hm, _⟩
    · subst h; exact keepChar_space
    · exact hrep c hm
  · intro c hc hw
    rw [hdata] at hc
    rcases collapseList_chars c hc with h | ⟨_, hws⟩
    · exact h
    · simp [hws] at hw
  · rw [hdata]; exact collapseList_noAdjWS _

/-- Re-normalizing a normalized string is the same as stripping it. -/
theorem normalizeToken_normalizeToken (s : String) :
    normalizeToken (normalizeToken s) = pyStrip (normalizeToken s) := by
  obtain ⟨hkeep, hws, hch⟩ := normalizeToken_chars s
  set l := (normalizeToken s).data with hl
  have hlow : l.map Char.toLower = l :=
    map_toLower_eq_self (fun c hc => toLower_of_keep (hkeep c hc) (hws c hc))
  have hinf : stripList l <:+: l := stripList_infix l
  have hrep : replaceList (stripList l) = stripList l :=
    replaceList_eq_self (fun c hc => hkeep c (hinf.subset hc))
  have hcol : collapseList (stripList l) = stripList l :=
    collapseList_eq_self (fun c hc => hws c (hinf.subset hc)) (hch.of_infix hinf)
  show String.mk (collapseList (replaceList (stripList ((normalizeToken s).data.map
    Char.toLower)))) = pyStrip (normalizeToken s)
  rw [← hl, hlow, hrep, hcol]
  rfl

/-! ## Claims C2 and C8 -/

/-- C2 (counterexample): `normalize(normalize(x)) == normalize(x)` fails at
    `x = "a!"`: the code strips *before* replacing punctuation by spaces, so
    `normalize("a!") = "a "` keeps a trailing space that a second pass removes. -/
theorem C2_normalize_not_idempotent_cex :
    normalizeToken (normalizeToken "a!") ≠ normalizeToken "a!" := by decide

/-- C2 (amended): normalization is idempotent only up to the boundary spaces
    introduced by the character substitution: for every string `x`,
    `normalize(normalize(x)) == strip(normalize(x))`. -/
theorem C2_normalize_normalize_eq_strip (s : String) :
    normalizeToken (normalizeToken s) = pyStrip (normalizeToken s) :=
  normalizeToken_normalizeToken s

/-- C8 (counterexample): a non-string input does not always normalize to the
    empty string: the integer `123` is coerced by `str()` and yields `"123"`. -/
theorem C8_nonstring_not_empty_cex :
    normalizeTokenPy (PyVal.int 123) ≠ "" := by decide

/-- C8 (amended): the normalizer never raises (it is a total function);
    `None` input yields the empty string, while other non-string inputs are
    coerced with `str()` and then normalized (so an integer yields its digit
    string and a boolean its lowercased name, not the empty string). -/
theorem C8_normalize_none_empty_and_coerces :
    normalizeTokenPy PyVal.none = "" ∧
    (∀ s : String, normalizeTokenPy (PyVal.str s) = normalizeToken s) ∧
    normalizeTokenPy (PyVal.int 123) = "123" ∧
    normalizeTokenPy (PyVal.int (-45)) = "-45" ∧
    normalizeTokenPy (PyVal.bool true) = "true" := by
  refine ⟨by decide, fun s => rfl, by decide, by decide, by decide⟩

/-! ## Alias expansion (`smart_search.CANONICAL_TAGS`, `alias_expand`) -/

/-- The `CANONICAL_TAGS` table, in Python dict insertion order:
    canonical tag paired with its alias set. -/
def canonicalTags : List (String × List String) :=
  [("beach", ["sea", "seaside", "ocean", "shore", "coast", "beachfront", "beachside"]),
   ("mountain", ["alps", "alpine", "peak", "summit", "mountains", "hill", "hillside"]),
   ("city", ["downtown", "urban", "central", "metropolitan", "metro"]),
   ("cabin", ["chalet", "lodge", "hut", "cottage"]),
   ("apartment", ["flat", "condo", "suite"]),
   ("pool", ["swimming", "swimmingpool", "plunge"]),
   ("hot tub", ["jacuzzi", "spa"]),
   ("wifi", ["wi-fi", "internet"])]

/-- Canonical tag plus aliases of one table entry, as a token set. -/
def ruleToks (r : String × List String) : Finset String :=
  insert r.1 r.2.toFinset

/-- One iteration of the `for canon, aliases in CANONICAL_TAGS.items()` loop:
    if the canonical tag or any alias is already in the accumulated set, add
    the canonical tag and all its aliases. -/
def aliasStep (acc : Finset String) (r : String × List String) : Finset String :=
  if r.1 ∈ acc ∨ r.2.any (· ∈ acc) then (insert r.1 acc) ∪ r.2.toFinset else acc

/-- `alias_expand` on the underlying token set (`alias_expand` returns
    `list(expanded)`, whose set this is). -/
def aliasExpandCore (s : Finset String) : Finset String :=
  canonicalTags.foldl aliasStep s

/-- `alias_expand(tokens)` on a token list, viewed as its token set
    (`expanded = set(tokens or [])`, then the loop). -/
def aliasExpandSet (tokens : List String) : Finset String :=
  aliasExpandCore tokens.toFinset

/-- Whether rule `r` is triggered by the set `s`. -/
def Trig (r : String × List String) (s : Finset String) : Prop :=
  r.1 ∈ s ∨ ∃ a ∈ r.2, a ∈ s

theorem aliasStep_trig {r : String × List String} {s : Finset String} (h : Trig r s) :
    aliasStep s r = s ∪ ruleToks r := by
  have hb : r.1 ∈ s ∨ r.2.any (· ∈ s) := by
    rcases h with h | ⟨a, ha, has⟩
    · exact Or.inl h
    · exact Or.inr (List.any_eq_true.mpr ⟨a, ha, by simpa using has⟩)
  rw [aliasStep, if_pos hb]
  ext x
  simp only [ruleToks, Finset.mem_insert, Finset.mem_union, List.mem_toFinset]
  tauto

theorem aliasStep_not_trig {r : String × List String} {s : Finset String} (h : ¬Trig r s) :
    aliasStep s r = s := by
  rw [aliasStep, if_neg]
  intro hb
  apply h
  rcases hb with hb | hb
  · exact Or.inl hb
  · rcases List.any_eq_true.mp hb with ⟨a, ha, has⟩
    exact Or.inr ⟨a, ha, by simpa using has⟩

theorem subset_aliasStep (s : Finset String) (r : String × List String) :
    s ⊆ aliasStep s r := by
  by_cases h : Trig r s
  · rw [aliasStep_trig h]; exact Finset.subset_union_left
  · rw [aliasStep_not_trig h]

theorem subset_foldl_aliasStep (rs : List (String × List String)) :
    ∀ s : Finset String, s ⊆ rs.foldl aliasStep s := by
  induction rs with
  | nil => intro s; exact Finset.Subset.refl s
  | cons r rs ih =>
      intro s
      exact (subset_aliasStep s r).trans (by simpa using ih (aliasStep s r))


instance (r : String × List String) (s : Finset String) : Decidable (Trig r s) := by
  unfold Trig; infer_instance

/-- Union of the token sets of all rules triggered by `s`. -/
def trigUnion (rs : List (String × List String)) (s : Finset String) : Finset String :=
  rs.foldr (fun r u => if Trig r s then ruleToks r ∪ u else u) ∅

theorem trigUnion_nil (s : Finset String) : trigUnion [] s = ∅ := rfl

theorem trigUnion_cons (r : String × List String) (rs : List (String × List String))
    (s : Finset String) :
    trigUnion (r :: rs) s =
      if Trig r s then ruleToks r ∪ trigUnion rs s else trigUnion rs s := rfl

theorem mem_trigUnion {rs : List (String × List String)} {s : Finset String} {x : String} :
    x ∈ trigUnion rs s ↔ ∃ r ∈ rs, Trig r s ∧ x ∈ ruleToks r := by
  induction rs with
  | nil => simp [trigUnion_nil]
  | cons r rs ih =>
      rw [trigUnion_cons]
      by_cases h : Trig r s
      · rw [if_pos h]
        simp only [Finset.mem_union, ih, List.mem_cons]
        constructor
        · rintro (hx | ⟨r', hr', ht, hx⟩)
          · exact ⟨r, Or.inl rfl, h, hx⟩
          · exact ⟨r', Or.inr hr', ht, hx⟩
        · rintro ⟨r', rfl | hr', ht, hx⟩
          · exact Or.inl hx
          · exact Or.inr ⟨r', hr', ht, hx⟩
      · rw [if_neg h, ih]
        constructor
        · rintro ⟨r', hr', ht, hx⟩
          exact ⟨r', List.mem_cons_of_mem _ hr', ht, hx⟩
        · rintro ⟨r', hr', ht, hx⟩
          rcases List.mem_cons.mp hr' with rfl | hr'
          · exact absurd ht h
          · exact ⟨r', hr', ht, hx⟩

theorem trig_union_disjoint {r r' : String × List String} {s : Finset String}
    (hd : ruleToks r ∩ ruleToks r' = ∅) :
    Trig r (s ∪ ruleToks r') ↔ Trig r s := by
  have hni : ∀ y, y ∈ ruleToks r → y ∉ ruleToks r' := by
    intro y hy hy'
    have : y ∈ ruleToks r ∩ ruleToks r' := Finset.mem_inter.mpr ⟨hy, hy'⟩
    rw [hd] at this
    exact absurd this (Finset.not_mem_empty y)
  constructor
  · rintro (h | ⟨a, ha, has⟩)
    · rcases Finset.mem_union.mp h with h | h
      · exact Or.inl h
      · exact absurd h (hni r.1 (Finset.mem_insert_self _ _))
    · rcases Finset.mem_union.mp has with h | h
      · exact Or.inr ⟨a, ha, h⟩
      · exact absurd h (hni a (Finset.mem_insert.mpr (Or.inr (List.mem_toFinset.mpr ha))))
  · rintro (h | ⟨a, ha, has⟩)
    · exact Or.inl (Finset.mem_union_left _ h)
    · exact Or.inr ⟨a, ha, Finset.mem_union_left _ has⟩

theorem trigUnion_congr {rs : List (String × List String)} {s s' : Finset String}
    (h : ∀ r ∈ rs, Trig r s ↔ Trig r s') : trigUnion rs s = trigUnion rs s' := by
  induction rs with
  | nil => rfl
  | cons q qs ih =>
      have hq := h q (List.mem_cons_self q qs)
      have hqs := ih (fun r hr => h r (List.mem_cons_of_mem _ hr))
      rw [trigUnion_cons, trigUnion_cons, hqs]
      by_cases ht : Trig q s
      · rw [if_pos ht, if_pos (hq.mp ht)]
      · rw [if_neg ht, if_neg (fun hx => ht (hq.mpr hx))]

/-- Pairwise token-disjointness of the rule table. -/
def RulesDisjoint (rs : List (String × List String)) : Prop :=
  rs.Pairwise (fun r r' => ruleToks r ∩ ruleToks r' = ∅)

theorem foldl_aliasStep_eq {rs : List (String × List String)} (hd : RulesDisjoint rs) :
    ∀ s : Finset String, rs.foldl aliasStep s = s ∪ trigUnion rs s := by
  induction rs with
  | nil => intro s; simp [trigUnion_nil]
  | cons r rs ih =>
      intro s
      have hd' : RulesDisjoint rs := (List.pairwise_cons.mp hd).2
      have hdr : ∀ r' ∈ rs, ruleToks r ∩ ruleToks r' = ∅ := (List.pairwise_cons.mp hd).1
      by_cases h : Trig r s
      · rw [List.foldl_cons, aliasStep_trig h, ih hd']
        have htu : trigUnion rs (s ∪ ruleToks r) = trigUnion rs s :=
          trigUnion_congr (fun r' hr' =>
            trig_union_disjoint (by rw [Finset.inter_comm]; exact hdr r' hr'))
        rw [htu, trigUnion_cons, if_pos h]
        ext x
        simp only [Finset.mem_union]
        tauto
      · rw [List.foldl_cons, aliasStep_not_trig h, ih hd', trigUnion_cons, if_neg h]

set_option maxHeartbeats 1000000 in
theorem canonicalTags_disjoint : RulesDisjoint canonicalTags := by
  rw [RulesDisjoint]
  decide

theorem aliasExpandCore_eq (s : Finset String) :
    aliasExpandCore s = s ∪ trigUnion canonicalTags s := by
  unfold aliasExpandCore
  exact foldl_aliasStep_eq canonicalTags_disjoint s

theorem subset_aliasExpandCore (s : Finset String) : s ⊆ aliasExpandCore s := by
  unfold aliasExpandCore
  exact subset_foldl_aliasStep canonicalTags s

attribute [irreducible] aliasStep aliasExpandCore trigUnion

set_option maxHeartbeats 1000000 in
theorem aliasExpandCore_idem (s : Finset String) :
    aliasExpandCore (aliasExpandCore s) = aliasExpandCore s := by
  have hsub : trigUnion canonicalTags (aliasExpandCore s) ⊆ aliasExpandCore s := by
    intro x hx
    rcases mem_trigUnion.mp hx with ⟨r, hr, ht, hxr⟩
    have htr : Trig r s := by
      have hy : ∃ y ∈ ruleToks r, y ∈ aliasExpandCore s := by
        rcases ht with h | ⟨a, ha, has⟩
        · exact ⟨r.1, Finset.mem_insert_self _ _, h⟩
        · exact ⟨a, Finset.mem_insert.mpr (Or.inr (List.mem_toFinset.mpr ha)), has⟩
      rcases hy with ⟨y, hyr, hys⟩
      rw [aliasExpandCore_eq] at hys
      rcases Finset.mem_union.mp hys with hys | hys
      · -- y is an original token of s, so r is triggered directly
        rcases Finset.mem_insert.mp hyr with rfl | hyr
        · exact Or.inl hys
        · exact Or.inr ⟨y, List.mem_toFinset.mp hyr, hys⟩
      · -- y was contributed by a triggered rule r'; disjointness forces r' = r
        rcases mem_trigUnion.mp hys with ⟨r', hr', htr', hyr'⟩
        have heq : r = r' := by
          by_contra hne
          have := List.Pairwise.forall
            (fun a b (hab : ruleToks a ∩ ruleToks b = ∅) => by
              rw [Finset.inter_comm] at hab; exact hab)
            canonicalTags_disjoint hr hr' hne
          have hy : y ∈ ruleToks r ∩ ruleToks r' := Finset.mem_inter.mpr ⟨hyr, hyr'⟩
          rw [this] at hy
          exact absurd hy (Finset.not_mem_empty y)
        rw [heq]; exact htr'
    rw [aliasExpandCore_eq s]
    exact Finset.mem_union_right _ (mem_trigUnion.mpr ⟨r, hr, htr, hxr⟩)
  rw [aliasExpandCore_eq (aliasExpandCore s)]
  exact Finset.union_eq_left.mpr hsub

/-- C7: alias expansion is monotonic and idempotent on underlying token sets:
    every input token survives expansion, and expanding the (listed) result of
    an expansion adds nothing new. -/
theorem C7_alias_expand_monotone_idem (T : List String) :
    T.toFinset ⊆ aliasExpandSet T ∧
    aliasExpandSet (aliasExpandSet T).toList = aliasExpandSet T := by
  constructor
  · exact subset_aliasExpandCore T.toFinset
  · show aliasExpandCore (aliasExpandSet T).toList.toFinset = aliasExpandCore T.toFinset
    rw [Finset.toList_toFinset]
    exact aliasExpandCore_idem T.toFinset

/-! ## SmartSearch (`smart_search.SmartSearch`) -/

/-- `smart_search.jaccard` on the two token sets
    (`set(a or [])` and `set(b or [])` of the Python lists). -/
def jaccardF (a b : Finset String) : ℚ :=
  if a = ∅ ∧ b = ∅ then 0
  else ((a ∩ b).card : ℚ) / ((a ∪ b).card : ℚ)

/-- `jaccard(a, b)` on token lists, as the code calls it. -/
def jaccardL (a b : List String) : ℚ :=
  jaccardF a.toFinset b.toFinset

theorem jaccardF_nonneg (a b : Finset String) : 0 ≤ jaccardF a b := by
  unfold jaccardF
  split
  · exact le_refl 0
  · positivity

theorem jaccardF_le_one (a b : Finset String) : jaccardF a b ≤ 1 := by
  unfold jaccardF
  split
  · exact zero_le_one
  · rename_i h
    have hcard : (a ∩ b).card ≤ (a ∪ b).card :=
      Finset.card_le_card Finset.inter_subset_union
    have hpos : 0 < (a ∪ b).card := by
      rcases not_and_or.mp h with h | h
      · exact Finset.card_pos.mpr ((Finset.nonempty_iff_ne_empty.mpr h).mono
          Finset.subset_union_left)
      · exact Finset.card_pos.mpr ((Finset.nonempty_iff_ne_empty.mpr h).mono
          Finset.subset_union_right)
    rw [div_le_one (by exact_mod_cast hpos)]
    exact_mod_cast hcard

theorem jaccardF_empty_left (b : Finset String) : jaccardF ∅ b = 0 := by
  unfold jaccardF
  split
  · rfl
  · simp

/-- A catalog row as `SmartSearch.__init__` reads it: the text columns used to
    build the searchable blob (`location, type, features, tags, description`),
    already coerced to strings. -/
structure CatRow where
  location : String
  type_ : String
  features : String
  tags : String
  description : String
deriving DecidableEq

/-- The per-row text blob: the parts joined with `" | "`, then
    `normalize_token`, stored as `__fulltext__`. -/
def buildFulltext (r : CatRow) : String :=
  normalizeToken (r.location ++ " | " ++ r.type_ ++ " | " ++ r.features ++ " | " ++
    r.tags ++ " | " ++ r.description)

/-- `SmartSearch.__init__`: keep each row together with its `__fulltext__`. -/
def buildIndex (df : List CatRow) : List (CatRow × String) :=
  df.map (fun r => (r, buildFulltext r))

/-- `find_candidates`' sanitized `top_k`:
    `top_k = max(1, min(top_k, max(1, len(self.df))))`. -/
def sanitizeTopK (topK : Int) (n : Nat) : Nat :=
  (max 1 (min topK (max 1 (n : Int)))).toNat

/-- The contract pandas documents for `sort_values("semantic_score",
    ascending=False)` with the default `kind='quicksort'`: the result is a
    permutation of the input, descending in the score.  The relative order of
    tied scores is NOT constrained (quicksort is not a stable kind). -/
def SortsByScoreDesc
    (sortFn : List ((CatRow × String) × ℚ) → List ((CatRow × String) × ℚ)) : Prop :=
  ∀ l, List.Perm (sortFn l) l ∧ List.Pairwise (fun a b => b.2 ≤ a.2) (sortFn l)

/-- `SmartSearch.find_candidates`: score every row by Jaccard similarity
    between the alias-expanded query tokens and the alias-expanded tokens of
    its re-normalized `__fulltext__`, sort descending by `semantic_score`, and
    take the sanitized `top_k` head.  The sort is `sort_values` with pandas'
    default unstable kind, so it enters the model as a parameter constrained
    only by `SortsByScoreDesc`. -/
def findCandidates (sortFn : List ((CatRow × String) × ℚ) → List ((CatRow × String) × ℚ))
    (ix : List (CatRow × String)) (query : String) (topK : Int) :
    List ((CatRow × String) × ℚ) :=
  let qTokens := aliasExpandSet (tokenize query)
  let k := sanitizeTopK topK ix.length
  let scored := ix.map (fun rt =>
    (rt, jaccardF qTokens (aliasExpandSet (tokenize (normalizeToken rt.2)))))
  (sortFn scored).take k

/-- One admissible implementation of the sort contract, used to instantiate
    closed statements about `find_candidates`. -/
def sortValuesModel : List ((CatRow × String) × ℚ) → List ((CatRow × String) × ℚ) :=
  fun l => l.mergeSort (fun a b => decide (b.2 ≤ a.2))

theorem sortValuesModel_spec : SortsByScoreDesc sortValuesModel := by
  intro l
  refine ⟨List.mergeSort_perm l _, ?_⟩
  have h : List.Pairwise (fun a b => (decide (b.2 ≤ a.2) : Bool) = true)
      (l.mergeSort (fun a b => decide (b.2 ≤ a.2))) := by
    apply List.sorted_mergeSort
    · intro a b c hab hbc
      simp only [decide_eq_true_eq] at *
      exact le_trans hbc hab
    · intro a b
      simp only [Bool.or_eq_true, decide_eq_true_eq]
      exact le_total b.2 a.2
  exact h.imp (fun hab => of_decide_eq_true hab)

theorem trigUnion_empty (rs : List (String × List String)) : trigUnion rs ∅ = ∅ := by
  induction rs with
  | nil => exact trigUnion_nil ∅
  | cons r rs ih =>
      rw [trigUnion_cons, if_neg, ih]
      rintro (h | ⟨a, _, ha⟩)
      · exact absurd h (Finset.not_mem_empty _)
      · exact absurd ha (Finset.not_mem_empty _)

theorem tokenize_empty : tokenize "" = [] := rfl

theorem aliasExpandSet_nil : aliasExpandSet [] = ∅ := by
  show aliasExpandCore ([] : List String).toFinset = ∅
  rw [List.toFinset_nil, aliasExpandCore_eq, trigUnion_empty]
  exact Finset.union_empty ∅

/-- With an empty query every row scores 0, so for any admissible sort the
    output is `min(sanitized top_k, len)` of the zero-scored rows, and all of
    them (as a permutation) when the sanitized `top_k` covers the catalog. -/
theorem findCandidates_empty_query
    (sortFn : List ((CatRow × String) × ℚ) → List ((CatRow × String) × ℚ))
    (hs : SortsByScoreDesc sortFn) (ix : List (CatRow × String)) (topK : Int) :
    (∀ p ∈ findCandidates sortFn ix "" topK,
      p.2 = 0 ∧ p ∈ ix.map (fun rt => (rt, (0 : ℚ)))) ∧
    (findCandidates sortFn ix "" topK).length = min (sanitizeTopK topK ix.length) ix.length ∧
    (ix.length ≤ sanitizeTopK topK ix.length →
      List.Perm (findCandidates sortFn ix "" topK) (ix.map (fun rt => (rt, (0 : ℚ))))) := by
  have hout : findCandidates sortFn ix "" topK =
      (sortFn (ix.map (fun rt => (rt, (0 : ℚ))))).take (sanitizeTopK topK ix.length) := by
    unfold findCandidates
    dsimp only
    rw [tokenize_empty, aliasExpandSet_nil]
    rw [List.map_congr_left (fun rt _ => by rw [jaccardF_empty_left])]
  obtain ⟨hperm, _⟩ := hs (ix.map (fun rt => (rt, (0 : ℚ))))
  refine ⟨?_, ?_, ?_⟩
  · intro p hp
    rw [hout] at hp
    have hp2 := hperm.mem_iff.mp (List.mem_of_mem_take hp)
    rcases List.mem_map.mp hp2 with ⟨rt, _, rfl⟩
    exact ⟨rfl, hp2⟩
  · rw [hout, List.length_take, hperm.length_eq, List.length_map]
  · intro hk
    rw [hout, List.take_of_length_le (by rw [hperm.length_eq, List.length_map]; exact hk)]
    exact hperm

/-- C3 (counterexample): with the default `top_k = 50`, an empty query over a
    catalog of 51 rows returns only 50 rows, not all of them (stated at the
    admissible model sort; the row count is the same for every admissible
    sort). -/
theorem C3_empty_query_cex :
    (findCandidates sortValuesModel
      (buildIndex (List.replicate 51 ⟨"", "", "", "", ""⟩)) "" 50).length = 50 ∧
    (List.replicate 51 (⟨"", "", "", "", ""⟩ : CatRow)).length = 51 := by
  constructor
  · rw [(findCandidates_empty_query sortValuesModel sortValuesModel_spec
      (buildIndex (List.replicate 51 ⟨"", "", "", "", ""⟩)) 50).2.1,
      show (buildIndex (List.replicate 51 (⟨"", "", "", "", ""⟩ : CatRow))).length = 51 by
        simp [buildIndex]]
    decide
  · simp

/-- C3 (amended): for every sort satisfying pandas' `sort_values` contract,
    every catalog and every `top_k`: an empty free-text query gives every
    returned row `semantic_score = 0`; exactly
    `min(max(1, min(top_k, max(1, len))), len)` rows of the catalog are
    returned; and when the sanitized `top_k` covers the catalog all rows come
    back as a permutation — the unstable sort guarantees no relative order on
    the tied scores, and the default `top_k = 50` truncates larger catalogs. -/
theorem C3_empty_query_scores_zero
    (sortFn : List ((CatRow × String) × ℚ) → List ((CatRow × String) × ℚ))
    (hs : SortsByScoreDesc sortFn) (df : List CatRow) (topK : Int) :
    (∀ p ∈ findCandidates sortFn (buildIndex df) "" topK,
      p.2 = 0 ∧ p ∈ (buildIndex df).map (fun rt => (rt, (0 : ℚ)))) ∧
    (findCandidates sortFn (buildIndex df) "" topK).length =
      min (sanitizeTopK topK df.length) df.length ∧
    (df.length ≤ sanitizeTopK topK df.length →
      List.Perm (findCandidates sortFn (buildIndex df) "" topK)
        ((buildIndex df).map (fun rt => (rt, (0 : ℚ))))) := by
  have h := findCandidates_empty_query sortFn hs (buildIndex df) topK
  rwa [show (buildIndex df).length = df.length by simp [buildIndex]] at h

/-- C3 witness: at the admissible model sort, a concrete one-row catalog with
    `top_k = 3` satisfies the hypotheses; one row is returned and it is a
    permutation (here: all) of the zero-scored catalog. -/
theorem C3_empty_query_scores_zero_witness :
    (findCandidates sortValuesModel (buildIndex [⟨"a", "b", "c", "d", "e"⟩]) "" 3).length =
      min (sanitizeTopK 3 1) 1 ∧
    List.Perm (findCandidates sortValuesModel (buildIndex [⟨"a", "b", "c", "d", "e"⟩]) "" 3)
      ((buildIndex [⟨"a", "b", "c", "d", "e"⟩]).map (fun rt => (rt, (0 : ℚ)))) := by
  have h := C3_empty_query_scores_zero sortValuesModel sortValuesModel_spec
    [⟨"a", "b", "c", "d", "e"⟩] 3
  exact ⟨h.2.1, h.2.2 (by decide)⟩

/-! ## Recommender (`recommender/Recommender.py`) -/

/-- Substring test helper: does the second list start with the first? -/
def isPrefixList : List Char → List Char → Bool
  | [], _ => true
  | _ :: _, [] => false
  | a :: as, b :: bs => a == b && isPrefixList as bs

/-- Python's `needle in hay` substring test on character lists. -/
def containsList (needle : List Char) : List Char → Bool
  | [] => isPrefixList needle []
  | c :: t => isPrefixList needle (c :: t) || containsList needle t

/-- A catalog row as `Recommender.recommend` reads it; numeric columns are
    already coerced (`float(... or 0)`, `int(... or 0)`), missing text columns
    are the empty string. -/
structure Row where
  property_id : String
  location : String
  environment : String
  property_type : String
  nightly_price : ℚ
  features : String
  tags : String
  min_guests : Int
  max_guests : Int
  fulltext : String
deriving DecidableEq

/-- The user profile fields `recommend` unpacks
    (`environment`, `budget_min`, `budget_max`, `group_size`). -/
structure UserPrefs where
  environment : String
  budget_min : ℚ
  budget_max : ℚ
  group_size : Int
deriving DecidableEq

/-- The optional LLM hint dict: `tags`, `features`, `locations`, `environments`. -/
structure LLMHints where
  tags : List String
  features : List String
  locations : List String
  environments : List String
deriving DecidableEq

/-- `Recommender._env_score`: Jaccard between row environment/tags/type tokens
    and the user environment plus LLM environments; neutral `0.5` if the
    latter set is empty. -/
def envScore (r : Row) (userEnv : String) (llmEnvs : List String) : ℚ :=
  let tokens := (tokR r.environment ++ tokR r.tags ++ tokR r.property_type).toFinset
  let wants := (tokR userEnv).toFinset ∪ (tokR (String.intercalate " " llmEnvs)).toFinset
  if wants = ∅ then 1/2 else jaccardF tokens wants

/-- `Recommender._budget_score`: neutral `0.5` with no budget, else linear
    falloff from the midpoint over the (ε-guarded) range. -/
def budgetScore (price bmin bmax : ℚ) : ℚ :=
  if bmin = 0 ∧ bmax = 0 then 1/2
  else
    let lo := min bmin bmax
    let hi := max bmin bmax
    let rng := max (hi - lo) (1/1000000000)
    let mid := (lo + hi) / 2
    max 0 (1 - |price - mid| / rng)

/-- `Recommender._group_score`: neutral `0.5` when no group size, `1.0` inside
    the capacity band, exponential decay `exp(-0.5·dist)` outside. -/
noncomputable def groupScore (r : Row) (gsize : Int) : ℝ :=
  if gsize ≤ 0 then 1/2
  else if r.min_guests ≤ gsize ∧ gsize ≤ r.max_guests then 1
  else
    Real.exp (-(1/2) *
      ((max 0 (if gsize < r.min_guests then r.min_guests - gsize else gsize - r.max_guests) :
        Int) : ℝ))

/-- `Recommender._tag_feature_score`: Jaccard between the row's token pool and
    the LLM tags∪features; `0` when no tags or features were supplied. -/
def tagFeatureScore (r : Row) (llmTags llmFeatures : List String) : ℚ :=
  let wanted := (tokR (String.intercalate " " (llmTags ++ llmFeatures))).toFinset
  if wanted = ∅ then 0
  else
    jaccardF ((tokR (String.intercalate " "
      [r.fulltext, r.tags, r.features, r.environment, r.property_type])).toFinset) wanted

/-- `Recommender._llm_similarity`: Jaccard between the row's token pool and all
    LLM hints (tags, features, environments); `0` when there are none. -/
def llmSimilarity (r : Row) (llmTags llmFeatures llmEnvs : List String) : ℚ :=
  let pool := (tokR (String.intercalate " " (llmTags ++ llmFeatures ++ llmEnvs))).toFinset
  if pool = ∅ then 0
  else
    jaccardF ((tokR (String.intercalate " "
      [r.fulltext, r.tags, r.features, r.environment, r.property_type])).toFinset) pool

/-- `Recommender._location_score`: `1.0` on a case-insensitive substring hit of
    any wanted location, soft Jaccard fallback otherwise, `0` with no wanted
    locations or an empty row location. -/
def locationScore (rowLoc : String) (wantedLocs : List String) : ℚ :=
  if wantedLocs = [] then 0
  else
    let rl := lowerStr rowLoc
    if rl = "" then 0
    else if wantedLocs.any (fun w => w != "" && containsList (lowerStr w).data rl.data) then 1
    else jaccardF (tokR rl).toFinset (tokR (String.intercalate " " wantedLocs)).toFinset

/-- The id-boost column: `1.0` iff the row's trimmed `property_id` is among the
    trimmed LLM-supplied ids; `0.0` when the id list is `None` or empty. -/
def llmIdHit (pid : String) (llm_ids : Option (List String)) : ℚ :=
  match llm_ids with
  | none => 0
  | some ids =>
    if ids = [] then 0
    else if pyStrip pid ∈ ids.map pyStrip then 1 else 0

/-- The base-weight table (`self.base_weights`) of the six blended signals. -/
structure Weights where
  env : ℚ
  budget : ℚ
  group : ℚ
  tagFeature : ℚ
  location : ℚ
  llmSim : ℚ
deriving DecidableEq

/-- The default base weights from `Recommender.__init__`. -/
def defaultBaseWeights : Weights :=
  ⟨22/100, 22/100, 18/100, 18/100, 10/100, 10/100⟩

/-- `self.id_boost_weight = 0.20`. -/
def idBoostWeight : ℚ := 20/100

/-- Presence of a budget signal:
    `bool((bmin or bmax) and not (float(bmin) == 0 and float(bmax) == 0))`. -/
def budgetPresentB (bmin bmax : ℚ) : Bool :=
  (decide (bmin ≠ 0) || decide (bmax ≠ 0)) && !(decide (bmin = 0) && decide (bmax = 0))

/-- Presence of a group-size signal: `bool(gsize and gsize > 0)`. -/
def groupPresentB (gsize : Int) : Bool :=
  decide (gsize ≠ 0) && decide (0 < gsize)

/-- Presence of an environment signal:
    `bool((str(user_env).strip() if user_env else "") or has_envs)`. -/
def envPresentB (userEnv : String) (hasEnvs : Bool) : Bool :=
  !(if userEnv = "" then "" else pyStrip userEnv).isEmpty || hasEnvs

/-- The normalization step of `_dynamic_weights` over the six presence flags:
    renormalize base weights of present signals (equal split if their sum is
    not positive), zero for absent signals, equal weights `1/6` when nothing
    is present (the code's Option A). -/
def dynamicWeightsCore (bw : Weights) (envP budgetP groupP tagP locP simP : Bool) : Weights :=
  let n : ℕ := (cond envP 1 0) + (cond budgetP 1 0) + (cond groupP 1 0) +
               (cond tagP 1 0) + (cond locP 1 0) + (cond simP 1 0)
  if n = 0 then ⟨1/6, 1/6, 1/6, 1/6, 1/6, 1/6⟩
  else
    let total : ℚ := (if envP then bw.env else 0) + (if budgetP then bw.budget else 0) +
      (if groupP then bw.group else 0) + (if tagP then bw.tagFeature else 0) +
      (if locP then bw.location else 0) + (if simP then bw.llmSim else 0)
    if 0 < total then
      ⟨if envP then bw.env / total else 0, if budgetP then bw.budget / total else 0,
       if groupP then bw.group / total else 0, if tagP then bw.tagFeature / total else 0,
       if locP then bw.location / total else 0, if simP then bw.llmSim / total else 0⟩
    else
      ⟨if envP then 1 / (n : ℚ) else 0, if budgetP then 1 / (n : ℚ) else 0,
       if groupP then 1 / (n : ℚ) else 0, if tagP then 1 / (n : ℚ) else 0,
       if locP then 1 / (n : ℚ) else 0, if simP then 1 / (n : ℚ) else 0⟩

/-- `Recommender._dynamic_weights`: derive the presence flags from the caller
    inputs, then renormalize. -/
def dynamicWeights (bw : Weights) (userEnv : String) (bmin bmax : ℚ) (gsize : Int)
    (hasTags hasFeatures hasLocs hasEnvs : Bool) : Weights :=
  dynamicWeightsCore bw (envPresentB userEnv hasEnvs) (budgetPresentB bmin bmax)
    (groupPresentB gsize) (hasTags || hasFeatures) hasLocs (hasEnvs || hasTags || hasFeatures)

/-- One scored row: the final blended `fit_score` of `recommend`, with the
    additive id boost. -/
noncomputable def scoreRow (W : Weights) (userEnv : String) (bmin bmax : ℚ) (gsize : Int)
    (tags feats locs envs : List String) (llm_ids : Option (List String)) (r : Row) :
    Row × ℝ :=
  (r,
    (W.env : ℝ) * (envScore r userEnv envs : ℝ) +
    (W.budget : ℝ) * (budgetScore r.nightly_price bmin bmax : ℝ) +
    (W.group : ℝ) * groupScore r gsize +
    (W.tagFeature : ℝ) * (tagFeatureScore r tags feats : ℝ) +
    (W.location : ℝ) * (locationScore r.location locs : ℝ) +
    (W.llmSim : ℝ) * (llmSimilarity r tags feats envs : ℝ) +
    (idBoostWeight : ℝ) * (llmIdHit r.property_id llm_ids : ℝ))

/-- `Recommender.recommend`: unpack user preferences and LLM hints (absent
    hints become empty lists), score every row, sort descending by
    `fit_score`, return the first `top_k`. -/
noncomputable def recommend (bw : Weights) (topK : ℕ) (u : UserPrefs) (df : List Row)
    (llm_hints : Option LLMHints) (llm_ids : Option (List String)) : List (Row × ℝ) :=
  let userEnv := u.environment
  let bmin := u.budget_min
  let bmax := u.budget_max
  let gsize := u.group_size
  let h := match llm_hints with | some h => h | none => ⟨[], [], [], []⟩
  let tags := h.tags.filter (· ≠ "")
  let feats := h.features.filter (· ≠ "")
  let locs := h.locations.filter (· ≠ "")
  let envs := h.environments.filter (· ≠ "")
  let W := dynamicWeights bw userEnv bmin bmax gsize (!tags.isEmpty) (!feats.isEmpty)
    (!locs.isEmpty) (!envs.isEmpty)
  let scored := df.map (scoreRow W userEnv bmin bmax gsize tags feats locs envs llm_ids)
  (scored.mergeSort (fun a b => decide (b.2 ≤ a.2))).take topK

set_option maxHeartbeats 4000000 in
/-- Exhaustive facts about the renormalization over the default base weights:
    components are nonnegative, they always sum to 1, an absent signal gets
    weight 0 whenever at least one signal is present, and with no signal at
    all every weight is the equal share `1/6`. -/
theorem dynamicWeightsCore_default_facts (e b g t l s2 : Bool) :
    0 ≤ (dynamicWeightsCore defaultBaseWeights e b g t l s2).env ∧
    0 ≤ (dynamicWeightsCore defaultBaseWeights e b g t l s2).budget ∧
    0 ≤ (dynamicWeightsCore defaultBaseWeights e b g t l s2).group ∧
    0 ≤ (dynamicWeightsCore defaultBaseWeights e b g t l s2).tagFeature ∧
    0 ≤ (dynamicWeightsCore defaultBaseWeights e b g t l s2).location ∧
    0 ≤ (dynamicWeightsCore defaultBaseWeights e b g t l s2).llmSim ∧
    (dynamicWeightsCore defaultBaseWeights e b g t l s2).env +
      (dynamicWeightsCore defaultBaseWeights e b g t l s2).budget +
      (dynamicWeightsCore defaultBaseWeights e b g t l s2).group +
      (dynamicWeightsCore defaultBaseWeights e b g t l s2).tagFeature +
      (dynamicWeightsCore defaultBaseWeights e b g t l s2).location +
      (dynamicWeightsCore defaultBaseWeights e b g t l s2).llmSim = 1 ∧
    ((e || b || g || t || l || s2) = true →
      (e = false → (dynamicWeightsCore defaultBaseWeights e b g t l s2).env = 0) ∧
      (b = false → (dynamicWeightsCore defaultBaseWeights e b g t l s2).budget = 0) ∧
      (g = false → (dynamicWeightsCore defaultBaseWeights e b g t l s2).group = 0) ∧
      (t = false → (dynamicWeightsCore defaultBaseWeights e b g t l s2).tagFeature = 0) ∧
      (l = false → (dynamicWeightsCore defaultBaseWeights e b g t l s2).location = 0) ∧
      (s2 = false → (dynamicWeightsCore defaultBaseWeights e b g t l s2).llmSim = 0)) ∧
    ((e || b || g || t || l || s2) = false →
      dynamicWeightsCore defaultBaseWeights e b g t l s2 =
        ⟨1/6, 1/6, 1/6, 1/6, 1/6, 1/6⟩) := by
  cases e <;> cases b <;> cases g <;> cases t <;> cases l <;> cases s2 <;>
    norm_num [dynamicWeightsCore, defaultBaseWeights]

/-- C1: for every combination of caller inputs, the dynamic weight table sums
    to 1, assigns weight 0 to every inactive signal whenever at least one
    signal is active, and falls back to equal weights `1/6` (still summing to
    1) when no signal is active. -/
theorem C1_dynamic_weights_normalized (userEnv : String) (bmin bmax : ℚ) (gsize : Int)
    (hasTags hasFeatures hasLocs hasEnvs : Bool) :
    ((dynamicWeights defaultBaseWeights userEnv bmin bmax gsize hasTags hasFeatures hasLocs
      hasEnvs).env + (dynamicWeights defaultBaseWeights userEnv bmin bmax gsize hasTags hasFeatures hasLocs
      hasEnvs).budget + (dynamicWeights defaultBaseWeights userEnv bmin bmax gsize hasTags hasFeatures hasLocs
      hasEnvs).group +
     (dynamicWeights defaultBaseWeights userEnv bmin bmax gsize hasTags hasFeatures hasLocs
      hasEnvs).tagFeature + (dynamicWeights defaultBaseWeights userEnv bmin bmax gsize hasTags hasFeatures hasLocs
      hasEnvs).location + (dynamicWeights defaultBaseWeights userEnv bmin bmax gsize hasTags hasFeatures hasLocs
      hasEnvs).llmSim = 1) ∧
    ((envPresentB userEnv hasEnvs || budgetPresentB bmin bmax || groupPresentB gsize ||
      (hasTags || hasFeatures) || hasLocs || (hasEnvs || hasTags || hasFeatures)) = true →
      (envPresentB userEnv hasEnvs = false → (dynamicWeights defaultBaseWeights userEnv bmin bmax gsize hasTags hasFeatures hasLocs
      hasEnvs).env = 0) ∧
      (budgetPresentB bmin bmax = false → (dynamicWeights defaultBaseWeights userEnv bmin bmax gsize hasTags hasFeatures hasLocs
      hasEnvs).budget = 0) ∧
      (groupPresentB gsize = false → (dynamicWeights defaultBaseWeights userEnv bmin bmax gsize hasTags hasFeatures hasLocs
      hasEnvs).group = 0) ∧
      ((hasTags || hasFeatures) = false → (dynamicWeights defaultBaseWeights userEnv bmin bmax gsize hasTags hasFeatures hasLocs
      hasEnvs).tagFeature = 0) ∧
      (hasLocs = false → (dynamicWeights defaultBaseWeights userEnv bmin bmax gsize hasTags hasFeatures hasLocs
      hasEnvs).location = 0) ∧
      ((hasEnvs || hasTags || hasFeatures) = false → (dynamicWeights defaultBaseWeights userEnv bmin bmax gsize hasTags hasFeatures hasLocs
      hasEnvs).llmSim = 0)) ∧
    ((envPresentB userEnv hasEnvs || budgetPresentB bmin bmax || groupPresentB gsize ||
      (hasTags || hasFeatures) || hasLocs || (hasEnvs || hasTags || hasFeatures)) = false →
      dynamicWeights defaultBaseWeights userEnv bmin bmax gsize hasTags hasFeatures hasLocs
      hasEnvs = ⟨1/6, 1/6, 1/6, 1/6, 1/6, 1/6⟩) := by
  unfold dynamicWeights
  obtain ⟨_, _, _, _, _, _, hsum, hinact, hnone⟩ :=
    dynamicWeightsCore_default_facts (envPresentB userEnv hasEnvs)
      (budgetPresentB bmin bmax) (groupPresentB gsize) (hasTags || hasFeatures) hasLocs
      (hasEnvs || hasTags || hasFeatures)
  exact ⟨hsum, hinact, hnone⟩

/-- C1 witness: with only an environment signal (`"beach"`), the inactive
    budget signal gets weight 0 and the weights sum to 1; with no signals at
    all, every weight is `1/6`. -/
theorem C1_dynamic_weights_normalized_witness :
    (dynamicWeights defaultBaseWeights "beach" 0 0 0 false false false false).budget = 0 ∧
    (dynamicWeights defaultBaseWeights "beach" 0 0 0 false false false false).env +
      (dynamicWeights defaultBaseWeights "beach" 0 0 0 false false false false).budget +
      (dynamicWeights defaultBaseWeights "beach" 0 0 0 false false false false).group +
      (dynamicWeights defaultBaseWeights "beach" 0 0 0 false false false false).tagFeature +
      (dynamicWeights defaultBaseWeights "beach" 0 0 0 false false false false).location +
      (dynamicWeights defaultBaseWeights "beach" 0 0 0 false false false false).llmSim = 1 ∧
    dynamicWeights defaultBaseWeights "" 0 0 0 false false false false =
      ⟨1/6, 1/6, 1/6, 1/6, 1/6, 1/6⟩ := by
  have h1 := C1_dynamic_weights_normalized "beach" 0 0 0 false false false false
  have h2 := C1_dynamic_weights_normalized "" 0 0 0 false false false false
  refine ⟨?_, h1.1, ?_⟩
  · exact (h1.2.1 (by decide)).2.1 (by decide)
  · exact h2.2.2 (by decide)

/-! ## Sub-score bounds (shared by the invariants claims) -/

theorem envScore_bounds (r : Row) (userEnv : String) (llmEnvs : List String) :
    0 ≤ envScore r userEnv llmEnvs ∧ envScore r userEnv llmEnvs ≤ 1 := by
  unfold envScore
  dsimp only
  split
  · norm_num
  · exact ⟨jaccardF_nonneg _ _, jaccardF_le_one _ _⟩

theorem budgetScore_bounds (price bmin bmax : ℚ) :
    0 ≤ budgetScore price bmin bmax ∧ budgetScore price bmin bmax ≤ 1 := by
  unfold budgetScore
  dsimp only
  split
  · norm_num
  · constructor
    · exact le_max_left 0 _
    · have hrng : (0 : ℚ) < max (max bmin bmax - min bmin bmax) (1/1000000000) := by
        have : (0 : ℚ) < 1/1000000000 := by norm_num
        exact lt_of_lt_of_le this (le_max_right _ _)
      have habs : 0 ≤ |price - (min bmin bmax + max bmin bmax) / 2| /
          max (max bmin bmax - min bmin bmax) (1/1000000000) :=
        div_nonneg (abs_nonneg _) (le_of_lt hrng)
      exact max_le (by norm_num) (by linarith)

theorem groupScore_bounds (r : Row) (gsize : Int) :
    0 ≤ groupScore r gsize ∧ groupScore r gsize ≤ 1 := by
  unfold groupScore
  split
  · norm_num
  · split
    · norm_num
    · constructor
      · exact le_of_lt (Real.exp_pos _)
      · rw [Real.exp_le_one_iff]
        have hx : (0 : ℝ) ≤ ((max 0 (if gsize < r.min_guests then r.min_guests - gsize
            else gsize - r.max_guests) : Int) : ℝ) := by
          exact_mod_cast le_max_left 0 _
        nlinarith

theorem tagFeatureScore_bounds (r : Row) (llmTags llmFeatures : List String) :
    0 ≤ tagFeatureScore r llmTags llmFeatures ∧ tagFeatureScore r llmTags llmFeatures ≤ 1 := by
  unfold tagFeatureScore
  dsimp only
  split
  · norm_num
  · exact ⟨jaccardF_nonneg _ _, jaccardF_le_one _ _⟩

theorem llmSimilarity_bounds (r : Row) (llmTags llmFeatures llmEnvs : List String) :
    0 ≤ llmSimilarity r llmTags llmFeatures llmEnvs ∧
    llmSimilarity r llmTags llmFeatures llmEnvs ≤ 1 := by
  unfold llmSimilarity
  dsimp only
  split
  · norm_num
  · exact ⟨jaccardF_nonneg _ _, jaccardF_le_one _ _⟩

theorem locationScore_bounds (rowLoc : String) (wantedLocs : List String) :
    0 ≤ locationScore rowLoc wantedLocs ∧ locationScore rowLoc wantedLocs ≤ 1 := by
  unfold locationScore
  dsimp only
  split
  · norm_num
  · split
    · norm_num
    · split
      · norm_num
      · exact ⟨jaccardF_nonneg _ _, jaccardF_le_one _ _⟩

theorem llmIdHit_zero_or_one (pid : String) (llm_ids : Option (List String)) :
    llmIdHit pid llm_ids = 0 ∨ llmIdHit pid llm_ids = 1 := by
  unfold llmIdHit
  rcases llm_ids with _ | ids
  · exact Or.inl rfl
  · dsimp only
    split
    · exact Or.inl rfl
    · split
      · exact Or.inr rfl
      · exact Or.inl rfl

/-- C5: every sub-score lies in `[0, 1]`, and the id-hit flag is exactly 0
    or 1, for every row and every query context. -/
theorem C5_subscores_in_unit_interval (r : Row) (userEnv : String) (bmin bmax : ℚ)
    (gsize : Int) (llmTags llmFeatures llmLocs llmEnvs : List String)
    (llm_ids : Option (List String)) :
    (0 ≤ envScore r userEnv llmEnvs ∧ envScore r userEnv llmEnvs ≤ 1) ∧
    (0 ≤ budgetScore r.nightly_price bmin bmax ∧ budgetScore r.nightly_price bmin bmax ≤ 1) ∧
    (0 ≤ groupScore r gsize ∧ groupScore r gsize ≤ 1) ∧
    (0 ≤ tagFeatureScore r llmTags llmFeatures ∧ tagFeatureScore r llmTags llmFeatures ≤ 1) ∧
    (0 ≤ locationScore r.location llmLocs ∧ locationScore r.location llmLocs ≤ 1) ∧
    (0 ≤ llmSimilarity r llmTags llmFeatures llmEnvs ∧
      llmSimilarity r llmTags llmFeatures llmEnvs ≤ 1) ∧
    (llmIdHit r.property_id llm_ids = 0 ∨ llmIdHit r.property_id llm_ids = 1) :=
  ⟨envScore_bounds r userEnv llmEnvs,
   budgetScore_bounds r.nightly_price bmin bmax,
   groupScore_bounds r gsize,
   tagFeatureScore_bounds r llmTags llmFeatures,
   locationScore_bounds r.location llmLocs,
   llmSimilarity_bounds r llmTags llmFeatures llmEnvs,
   llmIdHit_zero_or_one r.property_id llm_ids⟩

/-- C6: with `1 ≤ min_guests ≤ max_guests`, a group of exactly `min_guests`
    or exactly `max_guests` scores 1.0, and a group of `max_guests + 1`
    scores strictly less than 1.0. -/
theorem C6_group_score_boundary (r : Row) (h1 : 1 ≤ r.min_guests)
    (h2 : r.min_guests ≤ r.max_guests) :
    groupScore r r.min_guests = 1 ∧ groupScore r r.max_guests = 1 ∧
    groupScore r (r.max_guests + 1) < 1 := by
  unfold groupScore
  refine ⟨?_, ?_, ?_⟩
  · rw [if_neg (by omega), if_pos ⟨le_refl _, h2⟩]
  · rw [if_neg (by omega), if_pos ⟨h2, le_refl _⟩]
  · rw [if_neg (by omega), if_neg (by omega), if_neg (by omega)]
    rw [Real.exp_lt_one_iff]
    have hd : r.max_guests + 1 - r.max_guests = (1 : Int) := by omega
    rw [hd]
    norm_num

/-- C6 witness: a row with capacity 2–4 scores 1.0 at group sizes 2 and 4 and
    strictly below 1.0 at group size 5. -/
theorem C6_group_score_boundary_witness :
    (1 : Int) ≤ 2 ∧ (2 : Int) ≤ 4 ∧
    (groupScore ⟨"p", "", "", "", 0, "", "", 2, 4, ""⟩ 2 = 1 ∧
     groupScore ⟨"p", "", "", "", 0, "", "", 2, 4, ""⟩ 4 = 1 ∧
     groupScore ⟨"p", "", "", "", 0, "", "", 2, 4, ""⟩ 5 < 1) :=
  ⟨by norm_num, by norm_num,
   C6_group_score_boundary ⟨"p", "", "", "", 0, "", "", 2, 4, ""⟩ (by norm_num) (by norm_num)⟩

/-- C9: the id-boost never errors, a row's `llm_id_hit` is 1 exactly when its
    trimmed `property_id` is among the trimmed supplied ids, and appending ids
    that match no catalog row leaves every row's `llm_id_hit` unchanged. -/
theorem C9_llm_id_hit_membership_frame (catalog : List Row) (ids extra : List String)
    (hextra : ∀ e ∈ extra, pyStrip e ∉ catalog.map (fun r => pyStrip r.property_id)) :
    (∀ (pid : String) (l : List String),
      llmIdHit pid (some l) = 1 ↔ pyStrip pid ∈ l.map pyStrip) ∧
    (∀ r ∈ catalog,
      llmIdHit r.property_id (some (ids ++ extra)) = llmIdHit r.property_id (some ids)) := by
  constructor
  · intro pid l
    unfold llmIdHit
    dsimp only
    by_cases hl : l = []
    · rw [if_pos hl, hl]
      simp
    · rw [if_neg hl]
      by_cases hm : pyStrip pid ∈ l.map pyStrip
      · rw [if_pos hm]
        simp [hm]
      · rw [if_neg hm]
        constructor
        · intro h
          exact absurd h (by norm_num)
        · intro h
          exact absurd h hm
  · intro r hr
    have hpid : pyStrip r.property_id ∈ catalog.map (fun r => pyStrip r.property_id) :=
      List.mem_map_of_mem _ hr
    have hmem_iff : pyStrip r.property_id ∈ (ids ++ extra).map pyStrip ↔
        pyStrip r.property_id ∈ ids.map pyStrip := by
      rw [List.map_append, List.mem_append]
      constructor
      · rintro (h | h)
        · exact h
        · rcases List.mem_map.mp h with ⟨e, he, heq⟩
          exact absurd (by rw [← heq] at hpid; exact hpid) (hextra e he)
      · exact fun h => Or.inl h
    unfold llmIdHit
    dsimp only
    by_cases hie : ids ++ extra = []
    · rw [if_pos hie, if_pos (List.append_eq_nil.mp hie).1]
    · rw [if_neg hie]
      by_cases hi : ids = []
      · rw [if_pos hi]
        rw [if_neg (by rw [hmem_iff, hi]; simp)]
      · rw [if_neg hi]
        by_cases hm : pyStrip r.property_id ∈ ids.map pyStrip
        · rw [if_pos (hmem_iff.mpr hm), if_pos hm]
        · rw [if_neg (fun h => hm (hmem_iff.mp h)), if_neg hm]

/-- C9 witness: for the one-row catalog with id `"p1"`, appending the unknown
    id `"zz"` to the supplied list does not change the row's `llm_id_hit`. -/
theorem C9_llm_id_hit_membership_frame_witness :
    llmIdHit "p1" (some (["p1"] ++ ["zz"])) = llmIdHit "p1" (some ["p1"]) :=
  (C9_llm_id_hit_membership_frame [⟨"p1", "", "", "", 0, "", "", 0, 0, ""⟩] ["p1"] ["zz"]
    (by decide)).2 ⟨"p1", "", "", "", 0, "", "", 0, 0, ""⟩ (List.mem_singleton.mpr rfl)

/-- C4: calling the Recommender with `llm_hints = None` and `llm_ids = None`
    returns exactly the same rows, order and `fit_score`s as calling it with
    hints explicitly set to empty lists and an empty id list. -/
theorem C4_recommend_none_eq_empty_hints (bw : Weights) (topK : ℕ) (u : UserPrefs)
    (df : List Row) :
    recommend bw topK u df none none =
      recommend bw topK u df (some ⟨[], [], [], []⟩) (some []) := rfl

/-- The blended `fit_score` of one row is within `[0, 1.2]` whenever the six
    weights are nonnegative and sum to 1. -/
theorem scoreRow_fit_bounds (W : Weights) (userEnv : String) (bmin bmax : ℚ) (gsize : Int)
    (tags feats locs envs : List String) (llm_ids : Option (List String)) (r : Row)
    (hWe : 0 ≤ W.env) (hWb : 0 ≤ W.budget) (hWg : 0 ≤ W.group) (hWt : 0 ≤ W.tagFeature)
    (hWl : 0 ≤ W.location) (hWs : 0 ≤ W.llmSim)
    (hWsum : W.env + W.budget + W.group + W.tagFeature + W.location + W.llmSim = 1) :
    0 ≤ (scoreRow W userEnv bmin bmax gsize tags feats locs envs llm_ids r).2 ∧
    (scoreRow W userEnv bmin bmax gsize tags feats locs envs llm_ids r).2 ≤ 12/10 := by
  obtain ⟨he0, he1⟩ := envScore_bounds r userEnv envs
  obtain ⟨hb0, hb1⟩ := budgetScore_bounds r.nightly_price bmin bmax
  obtain ⟨hg0, hg1⟩ := groupScore_bounds r gsize
  obtain ⟨ht0, ht1⟩ := tagFeatureScore_bounds r tags feats
  obtain ⟨hl0, hl1⟩ := locationScore_bounds r.location locs
  obtain ⟨hs0, hs1⟩ := llmSimilarity_bounds r tags feats envs
  have hid : 0 ≤ llmIdHit r.property_id llm_ids ∧ llmIdHit r.property_id llm_ids ≤ 1 := by
    rcases llmIdHit_zero_or_one r.property_id llm_ids with h | h <;> rw [h] <;> norm_num
  unfold scoreRow
  dsimp only
  have rWe : (0 : ℝ) ≤ (W.env : ℝ) := by exact_mod_cast hWe
  have rWb : (0 : ℝ) ≤ (W.budget : ℝ) := by exact_mod_cast hWb
  have rWg : (0 : ℝ) ≤ (W.group : ℝ) := by exact_mod_cast hWg
  have rWt : (0 : ℝ) ≤ (W.tagFeature : ℝ) := by exact_mod_cast hWt
  have rWl : (0 : ℝ) ≤ (W.location : ℝ) := by exact_mod_cast hWl
  have rWs : (0 : ℝ) ≤ (W.llmSim : ℝ) := by exact_mod_cast hWs
  have rBo : (0 : ℝ) ≤ (idBoostWeight : ℝ) := by norm_num [idBoostWeight]
  have re0 : (0 : ℝ) ≤ (envScore r userEnv envs : ℝ) := by exact_mod_cast he0
  have re1 : (envScore r userEnv envs : ℝ) ≤ 1 := by exact_mod_cast he1
  have rb0 : (0 : ℝ) ≤ (budgetScore r.nightly_price bmin bmax : ℝ) := by exact_mod_cast hb0
  have rb1 : (budgetScore r.nightly_price bmin bmax : ℝ) ≤ 1 := by exact_mod_cast hb1
  have rt0 : (0 : ℝ) ≤ (tagFeatureScore r tags feats : ℝ) := by exact_mod_cast ht0
  have rt1 : (tagFeatureScore r tags feats : ℝ) ≤ 1 := by exact_mod_cast ht1
  have rl0 : (0 : ℝ) ≤ (locationScore r.location locs : ℝ) := by exact_mod_cast hl0
  have rl1 : (locationScore r.location locs : ℝ) ≤ 1 := by exact_mod_cast hl1
  have rs0 : (0 : ℝ) ≤ (llmSimilarity r tags feats envs : ℝ) := by exact_mod_cast hs0
  have rs1 : (llmSimilarity r tags feats envs : ℝ) ≤ 1 := by exact_mod_cast hs1
  have ri0 : (0 : ℝ) ≤ (llmIdHit r.property_id llm_ids : ℝ) := by exact_mod_cast hid.1
  have ri1 : (llmIdHit r.property_id llm_ids : ℝ) ≤ 1 := by exact_mod_cast hid.2
  have hsumR : (W.env : ℝ) + (W.budget : ℝ) + (W.group : ℝ) + (W.tagFeature : ℝ) +
      (W.location : ℝ) + (W.llmSim : ℝ) = 1 := by exact_mod_cast hWsum
  have hBo : (idBoostWeight : ℝ) = 20/100 := by norm_num [idBoostWeight]
  constructor
  · have l1 := mul_nonneg rWe re0
    have l2 := mul_nonneg rWb rb0
    have l3 := mul_nonneg rWg hg0
    have l4 := mul_nonneg rWt rt0
    have l5 := mul_nonneg rWl rl0
    have l6 := mul_nonneg rWs rs0
    have l7 := mul_nonneg rBo ri0
    linarith
  · have m1 := mul_le_of_le_one_right rWe re1
    have m2 := mul_le_of_le_one_right rWb rb1
    have m3 := mul_le_of_le_one_right rWg hg1
    have m4 := mul_le_of_le_one_right rWt rt1
    have m5 := mul_le_of_le_one_right rWl rl1
    have m6 := mul_le_of_le_one_right rWs rs1
    have m7 := mul_le_of_le_one_right rBo ri1
    linarith

/-- C10: with the default base weights and the `+0.20` id boost, every
    `fit_score` produced by `recommend` lies in `[0, 1.2]`. -/
theorem C10_fit_scores_bounded (topK : ℕ) (u : UserPrefs) (df : List Row)
    (llm_hints : Option LLMHints) (llm_ids : Option (List String)) :
    ∀ p ∈ recommend defaultBaseWeights topK u df llm_hints llm_ids,
      0 ≤ p.2 ∧ p.2 ≤ 12/10 := by
  intro p hp
  unfold recommend at hp
  dsimp only at hp
  have hp1 := List.mem_of_mem_take hp
  have hp2 := (List.mem_mergeSort).mp hp1
  rcases List.mem_map.mp hp2 with ⟨r, _, rfl⟩
  unfold dynamicWeights
  refine scoreRow_fit_bounds _ _ _ _ _ _ _ _ _ _ _ ?_ ?_ ?_ ?_ ?_ ?_ ?_
  · exact (dynamicWeightsCore_default_facts _ _ _ _ _ _).1
  · exact (dynamicWeightsCore_default_facts _ _ _ _ _ _).2.1
  · exact (dynamicWeightsCore_default_facts _ _ _ _ _ _).2.2.1
  · exact (dynamicWeightsCore_default_facts _ _ _ _ _ _).2.2.2.1
  · exact (dynamicWeightsCore_default_facts _ _ _ _ _ _).2.2.2.2.1
  · exact (dynamicWeightsCore_default_facts _ _ _ _ _ _).2.2.2.2.2.1
  · exact (dynamicWeightsCore_default_facts _ _ _ _ _ _).2.2.2.2.2.2.1

/-- C10 witness: on a concrete one-row catalog with no signals at all, the
    single output row is produced by `recommend` and its `fit_score` is
    within `[0, 1.2]`. -/
theorem C10_fit_scores_bounded_witness :
    scoreRow (dynamicWeights defaultBaseWeights "" 0 0 0 false false false false)
        "" 0 0 0 [] [] [] [] none ⟨"p", "", "", "", 0, "", "", 0, 0, ""⟩ ∈
      recommend defaultBaseWeights 5 ⟨"", 0, 0, 0⟩
        [⟨"p", "", "", "", 0, "", "", 0, 0, ""⟩] none none ∧
    0 ≤ (scoreRow (dynamicWeights defaultBaseWeights "" 0 0 0 false false false false)
        "" 0 0 0 [] [] [] [] none ⟨"p", "", "", "", 0, "", "", 0, 0, ""⟩).2 ∧
    (scoreRow (dynamicWeights defaultBaseWeights "" 0 0 0 false false false false)
        "" 0 0 0 [] [] [] [] none ⟨"p", "", "", "", 0, "", "", 0, 0, ""⟩).2 ≤ 12/10 := by
  have hmem : scoreRow (dynamicWeights defaultBaseWeights "" 0 0 0 false false false false)
      "" 0 0 0 [] [] [] [] none ⟨"p", "", "", "", 0, "", "", 0, 0, ""⟩ ∈
      recommend defaultBaseWeights 5 ⟨"", 0, 0, 0⟩
        [⟨"p", "", "", "", 0, "", "", 0, 0, ""⟩] none none := by
    unfold recommend
    dsimp only
    rw [List.map_cons, List.map_nil, List.mergeSort_singleton]
    exact List.mem_singleton.mpr rfl
  obtain ⟨h0, h1⟩ := C10_fit_scores_bounded 5 ⟨"", 0, 0, 0⟩
    [⟨"p", "", "", "", 0, "", "", 0, 0, ""⟩] none none _ hmem
  exact ⟨hmem, h0, h1⟩
